/-
Verification of the retry-strategies library: a shallow embedding of the
backoff strategies, the retry-limit decorator, the cancellable wait
primitive (`waitFor`) and the retry loop, together with proofs of the
spec's claims about them.

JavaScript numbers are modelled as `JSNum`: NaN, the two infinities, and
finite values represented exactly as rationals.  The arithmetic operations
used by the source (`Math.min`, `+`, `*`, `-`, `/ 2`, `Math.floor`,
comparisons, `Number.isNaN`, `Number.isInteger`, `Number.isSafeInteger`)
are transcribed with IEEE-754 special-value behaviour (NaN propagation,
0 * ∞ = NaN, ∞ - ∞ = NaN, comparisons with NaN false).  Finite arithmetic
is exact (rounding error of doubles is not modelled).
-/
import Mathlib

set_option maxRecDepth 8000

namespace RetryStrategies

/-- A JavaScript number: NaN, -Infinity, +Infinity, or a finite value
(modelled exactly as a rational). -/
inductive JSNum where
  | nan : JSNum
  | ninf : JSNum
  | pinf : JSNum
  | fin : ℚ → JSNum
  deriving DecidableEq, Repr

namespace JSNum

/-- JS `Number.isNaN`. -/
def isNaN : JSNum → Bool
  | .nan => true
  | _ => false

/-- Strict less-than, JS `<`: any comparison involving NaN is false. -/
def jlt : JSNum → JSNum → Bool
  | .nan, _ => false
  | _, .nan => false
  | .ninf, .ninf => false
  | .ninf, _ => true
  | _, .ninf => false
  | .pinf, _ => false
  | .fin _, .pinf => true
  | .fin a, .fin b => decide (a < b)

/-- JS `>`. -/
def jgt (a b : JSNum) : Bool := jlt b a

/-- JS `Math.min` of two arguments: NaN if either argument is NaN,
otherwise the smaller. -/
def jmin (a b : JSNum) : JSNum :=
  if a.isNaN ∨ b.isNaN then .nan
  else if jlt b a then b else a

/-- IEEE addition. -/
def jadd : JSNum → JSNum → JSNum
  | .nan, _ => .nan
  | _, .nan => .nan
  | .pinf, .ninf => .nan
  | .ninf, .pinf => .nan
  | .pinf, _ => .pinf
  | _, .pinf => .pinf
  | .ninf, _ => .ninf
  | _, .ninf => .ninf
  | .fin a, .fin b => .fin (a + b)

/-- IEEE subtraction. -/
def jsub : JSNum → JSNum → JSNum
  | .nan, _ => .nan
  | _, .nan => .nan
  | .pinf, .pinf => .nan
  | .ninf, .ninf => .nan
  | .pinf, _ => .pinf
  | _, .pinf => .ninf
  | .ninf, _ => .ninf
  | _, .ninf => .pinf
  | .fin a, .fin b => .fin (a - b)

/-- IEEE multiplication (`0 * ±∞ = NaN`). -/
def jmul : JSNum → JSNum → JSNum
  | .nan, _ => .nan
  | _, .nan => .nan
  | .pinf, .pinf => .pinf
  | .pinf, .ninf => .ninf
  | .ninf, .pinf => .ninf
  | .ninf, .ninf => .pinf
  | .pinf, .fin b => if b = 0 then .nan else if 0 < b then .pinf else .ninf
  | .fin a, .pinf => if a = 0 then .nan else if 0 < a then .pinf else .ninf
  | .ninf, .fin b => if b = 0 then .nan else if 0 < b then .ninf else .pinf
  | .fin a, .ninf => if a = 0 then .nan else if 0 < a then .ninf else .pinf
  | .fin a, .fin b => .fin (a * b)

/-- Division by the finite nonzero constant 2 (only use of `/` in the source). -/
def jhalf : JSNum → JSNum
  | .nan => .nan
  | .pinf => .pinf
  | .ninf => .ninf
  | .fin a => .fin (a / 2)

/-- JS `Math.floor`. -/
def jfloor : JSNum → JSNum
  | .nan => .nan
  | .pinf => .pinf
  | .ninf => .ninf
  | .fin a => .fin (⌊a⌋ : ℚ)

/-- JS `2 ** n` for a natural exponent (the only power the source takes). -/
def jpow2 (n : ℕ) : JSNum := .fin ((2 : ℚ) ^ n)

/-- JS `Number.isInteger`. -/
def isInteger : JSNum → Bool
  | .fin a => decide (a.den = 1)
  | _ => false

/-- JS `Number.isSafeInteger`: an integer with absolute value at most 2^53 - 1. -/
def isSafeInteger : JSNum → Bool
  | .fin a => decide (a.den = 1 ∧ a.num.natAbs ≤ 2 ^ 53 - 1)
  | _ => false

/-- Rendering used for `${value}` interpolation in error messages.  Finite
integers render as their integer numeral; other finite values via the
rational's representation (all interpolated values in the claims are
integers, NaN or infinities). -/
def jrepr : JSNum → String
  | .nan => "NaN"
  | .pinf => "Infinity"
  | .ninf => "-Infinity"
  | .fin a => if a.den = 1 then toString a.num else toString a

/-- Spec-level non-strict order on JS numbers (JS `<=` semantics: any
comparison involving NaN is false).  Used to state monotonicity. -/
def jle : JSNum → JSNum → Bool
  | .nan, _ => false
  | _, .nan => false
  | .ninf, _ => true
  | _, .ninf => false
  | _, .pinf => true
  | .pinf, .fin _ => false
  | .fin a, .fin b => decide (a ≤ b)

/-- A non-negative value: a non-negative finite value or +Infinity. -/
def NonNeg : JSNum → Prop
  | .pinf => True
  | .fin a => 0 ≤ a
  | _ => False

instance : DecidablePred NonNeg := by
  intro x
  cases x <;> simp [NonNeg] <;> infer_instance

/-- A finite non-negative value. -/
def FinNonNeg : JSNum → Prop
  | .fin a => 0 ≤ a
  | _ => False

instance : DecidablePred FinNonNeg := by
  intro x
  cases x <;> simp [FinNonNeg] <;> infer_instance

end JSNum

open JSNum

/-- Substring containment on strings, used to state "the error message
carries value v". -/
def ContainsStr (needle hay : String) : Prop := needle.data <:+: hay.data

instance (needle hay : String) : Decidable (ContainsStr needle hay) := by
  unfold ContainsStr
  infer_instance

/-! ## Cancellable wait primitive

Shallow embedding of `waitFor` (src/unnamed/part_017): the current version,
whose behaviour matches the unit tests in src/unnamed/part_015 (it has the
"already aborted" short-circuit).  The outcome of a call is one of:
a synchronous `RangeError` throw (no timer created), an immediate rejection
with the signal's reason (no timer created), or a scheduled timer that
resolves after the requested duration.  Cancellation arriving *while*
waiting is a real-time event outside this embedding; a signal is modelled
by its state at call time. -/

/-- An `AbortSignal` as observed at call time: whether it is already
aborted, and its `reason` value. -/
structure Signal (ε : Type) where
  aborted : Bool
  reason : ε

/-- Maximum setTimeout delay: `0x7fffffff` = 2^31 - 1. -/
def INT32_MAX : JSNum := .fin 2147483647

/-- Outcome of a `waitFor` call. -/
inductive WaitResult (ε : Type) where
  | rangeThrow (maxv received : JSNum) : WaitResult ε
  | rejected (reason : ε) : WaitResult ε
  | timer (delay : JSNum) : WaitResult ε
  deriving DecidableEq

/-- Whether the call scheduled a timer. -/
def WaitResult.timerStarted : WaitResult ε → Bool
  | .timer _ => true
  | _ => false

/-- Whether the call threw the range error. -/
def WaitResult.isRangeThrow : WaitResult ε → Bool
  | .rangeThrow _ _ => true
  | _ => false

/-- Message of the range error thrown by `waitFor`, transcribed from the
source's template string. -/
def rangeMessage (maxv received : JSNum) : String :=
  "Delay must not exceed INT32_MAX: expected up to " ++ maxv.jrepr
    ++ ", received " ++ received.jrepr

/-- Shallow embedding of `waitFor(delay, signal)` from src/unnamed/part_017:
first the range check (throws before anything else), then the
already-aborted short-circuit (rejects with the signal's reason, no timer),
otherwise a timer is scheduled for the requested duration. -/
def waitFor (delay : JSNum) (signal : Option (Signal ε)) : WaitResult ε :=
  if jgt delay INT32_MAX then .rangeThrow INT32_MAX delay
  else
    match signal with
    | some s => if s.aborted then .rejected s.reason else .timer delay
    | none => .timer delay

/-! ## Construction-time validation

Every concrete strategy validates its numeric parameters in its
constructor and throws `RangeError` on violation.  The thrown errors are
modelled structurally: each constructor of `VErr` corresponds to one
`throw new RangeError(...)` site shape in the source, carrying the
parameter name and the received value exactly as the source interpolates
them; `VErr.message` rebuilds the source's message string. -/

/-- A construction-time `RangeError`, one constructor per message shape. -/
inductive VErr where
  | notNaN (param : String) : VErr
  | nonNeg (param : String) (received : JSNum) : VErr
  | capGeBase (cap base : JSNum) : VErr
  | capGeInitial (cap initialDelay : JSNum) : VErr
  | safeInteger (param : String) (received : JSNum) : VErr
  | integer (param : String) (received : JSNum) : VErr
  deriving DecidableEq

/-- The message string of a validation error, transcribed from the
source's template strings. -/
def VErr.message : VErr → String
  | .notNaN p => p ++ " must not be " ++ "NaN"
  | .nonNeg p v => p ++ " must be 0 or greater, received: " ++ v.jrepr
  | .capGeBase c b =>
      "Cap must be greater than or equal to base, received cap: "
        ++ c.jrepr ++ ", base: " ++ b.jrepr
  | .capGeInitial c i =>
      "Cap must be greater than or equal to initial delay, received cap: "
        ++ c.jrepr ++ ", initial delay: " ++ i.jrepr
  | .safeInteger p v => p ++ " must be a safe integer, received: " ++ v.jrepr
  | .integer p v => p ++ " must be an integer, received: " ++ v.jrepr

/-- The offending value a validation error reports (for the NaN checks the
source does not interpolate the value, but the value is NaN itself and the
message spells "NaN"). -/
def VErr.offender : VErr → JSNum
  | .notNaN _ => .nan
  | .nonNeg _ v => v
  | .capGeBase c _ => c
  | .capGeInitial c _ => c
  | .safeInteger _ v => v
  | .integer _ v => v

/-! ## Strategy embeddings

Each strategy is embedded as: a constructor `mk...` transcribing the
validation checks (in source order), an initial mutable state transcribing
the constructor's field initialisation, a step function `...Next`
transcribing `nextBackoff` (returning the delay and the updated mutable
state), and `...Reset` transcribing `resetBackoff`.  Immutable
(`readonly`) fields are passed as parameters rather than stored in the
state.  Random-based strategies take the `Math.random()` draw of that call
as an explicit argument.  No `nextBackoff` in the source contains a throw,
so the step functions are total. -/

/-- ConstantBackoff constructor validation. -/
def mkConstant (delay : JSNum) : Except VErr Unit :=
  if delay.isNaN then .error (.notNaN "Delay")
  else if jlt delay (.fin 0) then .error (.nonNeg "Delay" delay)
  else .ok ()

/-- ConstantBackoff.nextBackoff (no mutable state). -/
def constantNext (delay : JSNum) : Unit → JSNum × Unit := fun _ => (delay, ())

/-- ConstantBackoff.resetBackoff (a no-op). -/
def constantReset : Unit → Unit := fun s => s

/-- ZeroBackoff.nextBackoff. -/
def zeroNext : Unit → JSNum × Unit := fun _ => (.fin 0, ())

/-- ZeroBackoff.resetBackoff (a no-op). -/
def zeroReset : Unit → Unit := fun s => s

/-- StopBackoff.nextBackoff: always the NaN sentinel. -/
def haltNext : Unit → JSNum × Unit := fun _ => (.nan, ())

/-- StopBackoff.resetBackoff (a no-op). -/
def haltReset : Unit → Unit := fun s => s

/-- ExponentialBackoff constructor validation (also used verbatim by
Fibonacci, FullJitter, EqualJitter and DecorrelatedJitter, whose
constructors perform exactly the same four checks). -/
def mkExponential (base cap : JSNum) : Except VErr Unit :=
  if base.isNaN then .error (.notNaN "Base")
  else if jlt base (.fin 0) then .error (.nonNeg "Base" base)
  else if cap.isNaN then .error (.notNaN "Cap")
  else if jlt cap base then .error (.capGeBase cap base)
  else .ok ()

/-- ExponentialBackoff.nextBackoff: `min(cap, base * 2 ** n)`, then the
attempt counter advances. -/
def expNext (base cap : JSNum) (n : ℕ) : JSNum × ℕ :=
  (jmin cap (jmul base (jpow2 n)), n + 1)

/-- ExponentialBackoff constructor state initialisation: counter 0. -/
def expInit : ℕ := 0

/-- ExponentialBackoff.resetBackoff: counter back to 0. -/
def expReset : ℕ → ℕ := fun _ => 0

/-- LinearBackoff constructor validation. -/
def mkLinear (increment initialDelay cap : JSNum) : Except VErr Unit :=
  if ¬increment.isSafeInteger then .error (.safeInteger "Increment" increment)
  else if jlt increment (.fin 0) then .error (.nonNeg "Increment" increment)
  else if ¬initialDelay.isSafeInteger then
    .error (.safeInteger "Initial delay" initialDelay)
  else if jlt initialDelay (.fin 0) then
    .error (.nonNeg "Initial delay" initialDelay)
  else if ¬cap.isSafeInteger then .error (.safeInteger "Cap" cap)
  else if jlt cap initialDelay then .error (.capGeInitial cap initialDelay)
  else .ok ()

/-- LinearBackoff.nextBackoff: `min(cap, initialDelay + increment * n)`. -/
def linNext (increment initialDelay cap : JSNum) (n : ℕ) : JSNum × ℕ :=
  (jmin cap (jadd initialDelay (jmul increment (.fin (n : ℚ)))), n + 1)

/-- LinearBackoff constructor state initialisation: counter 0. -/
def linInit : ℕ := 0

/-- LinearBackoff.resetBackoff: counter back to 0. -/
def linReset : ℕ → ℕ := fun _ => 0

/-- Mutable state of FibonacciBackoff: the previous and current sequence
values. -/
structure FibState where
  previousDelay : JSNum
  currentDelay : JSNum
  deriving DecidableEq

/-- FibonacciBackoff constructor state initialisation:
`previousDelay = 0`, `currentDelay = base`. -/
def fibInit (base : JSNum) : FibState := ⟨.fin 0, base⟩

/-- FibonacciBackoff.nextBackoff: delay is `min(cap, currentDelay)`, then
the pair advances one Fibonacci step. -/
def fibNext (cap : JSNum) (s : FibState) : JSNum × FibState :=
  (jmin cap s.currentDelay,
   ⟨s.currentDelay, jadd s.previousDelay s.currentDelay⟩)

/-- FibonacciBackoff.resetBackoff: back to `(0, base)`. -/
def fibReset (base : JSNum) : FibState → FibState := fun _ => ⟨.fin 0, base⟩

/-- FullJitterBackoff.nextBackoff with this call's `Math.random()` draw
`r`: `floor(r * min(cap, base * 2 ** n))`. -/
def fullJitterNext (base cap : JSNum) (r : ℚ) (n : ℕ) : JSNum × ℕ :=
  (jfloor (jmul (.fin r) (jmin cap (jmul base (jpow2 n)))), n + 1)

/-- FullJitterBackoff constructor state initialisation: counter 0. -/
def fullJitterInit : ℕ := 0

/-- FullJitterBackoff.resetBackoff: counter back to 0. -/
def fullJitterReset : ℕ → ℕ := fun _ => 0

/-- EqualJitterBackoff.nextBackoff with draw `r`:
`floor(half + r * half)` where `half = min(cap, base * 2 ** n) / 2`. -/
def equalJitterNext (base cap : JSNum) (r : ℚ) (n : ℕ) : JSNum × ℕ :=
  (jfloor (jadd (jhalf (jmin cap (jmul base (jpow2 n))))
      (jmul (.fin r) (jhalf (jmin cap (jmul base (jpow2 n)))))), n + 1)

/-- EqualJitterBackoff constructor state initialisation: counter 0. -/
def equalJitterInit : ℕ := 0

/-- EqualJitterBackoff.resetBackoff: counter back to 0. -/
def equalJitterReset : ℕ → ℕ := fun _ => 0

/-- DecorrelatedJitterBackoff constructor state initialisation:
`previousDelay = base`. -/
def decorInit (base : JSNum) : JSNum := base

/-- DecorrelatedJitterBackoff.nextBackoff with draw `r`:
`delay = min(cap, floor(base + r * (previousDelay * 3 - base)))`, which
also becomes the new `previousDelay`. -/
def decorNext (base cap : JSNum) (r : ℚ) (prev : JSNum) : JSNum × JSNum :=
  let delay := jmin cap
    (jfloor (jadd base (jmul (.fin r) (jsub (jmul prev (.fin 3)) base))))
  (delay, delay)

/-- DecorrelatedJitterBackoff.resetBackoff: `previousDelay` back to base. -/
def decorReset (base : JSNum) : JSNum → JSNum := fun _ => base

/-- UptoBackoff constructor validation (checks in source order). -/
def mkUpto (retries : JSNum) : Except VErr Unit :=
  if retries.isNaN then .error (.notNaN "Retries")
  else if ¬retries.isInteger then .error (.integer "Retries" retries)
  else if jlt retries (.fin 0) then .error (.nonNeg "Retries" retries)
  else .ok ()

/-- UptoBackoff constructor state initialisation: `attemptsLeft = retries`
paired with the wrapped strategy's state. -/
def uptoInit (retries : ℤ) (innerInit : σ) : ℤ × σ := (retries, innerInit)

/-- UptoBackoff.nextBackoff: `if (attemptsLeft-- <= 0) return NaN` — the
counter is post-decremented on every call; on a positive counter the call
delegates to the wrapped strategy and its result passes through
unchanged. -/
def uptoNext (innerNext : σ → JSNum × σ) : ℤ × σ → JSNum × (ℤ × σ)
  | (a, t) =>
    if a ≤ 0 then (.nan, (a - 1, t))
    else
      let r := innerNext t
      (r.1, (a - 1, r.2))

/-- UptoBackoff.resetBackoff: restore the counter to `retries` and reset
the wrapped strategy. -/
def uptoReset (retries : ℤ) (innerReset : σ → σ) : ℤ × σ → ℤ × σ
  | (_, t) => (retries, innerReset t)

/-! ## Call sequences

The state after `n` calls, and the value returned by the `n`-th call
(0-based), of a strategy step function run from a given state.  Variants
with an explicit stream `rs` of `Math.random()` draws serve the
random-based strategies (the `n`-th call consumes `rs n`). -/

/-- State after `n` calls of a deterministic step function. -/
def stateAfter (next : σ → JSNum × σ) : ℕ → σ → σ
  | 0, s => s
  | n + 1, s => (next (stateAfter next n s)).2

/-- Value returned by the `n`-th call (0-based) of a deterministic step
function. -/
def outAt (next : σ → JSNum × σ) (n : ℕ) (s : σ) : JSNum :=
  (next (stateAfter next n s)).1

/-- State after `n` calls of a random-based step function drawing from the
stream `rs`. -/
def stateAfterR (next : ℚ → σ → JSNum × σ) (rs : ℕ → ℚ) : ℕ → σ → σ
  | 0, s => s
  | n + 1, s => (next (rs n) (stateAfterR next rs n s)).2

/-- Value returned by the `n`-th call (0-based) of a random-based step
function drawing from the stream `rs`. -/
def outAtR (next : ℚ → σ → JSNum × σ) (rs : ℕ → ℚ) (n : ℕ) (s : σ) : JSNum :=
  (next (rs n) (stateAfterR next rs n s)).1

/-! ## Retry loop

Shallow embedding of `retry` (src/packages/retry-strategies/src/retry/retry.ts).
The body is `try { return fn(); } catch (error) { ... }` inside an `async`
function.  JavaScript semantics of `return fn()` (without `await`) inside a
`try`: if `fn()` throws synchronously the `catch` runs; if `fn()` returns a
promise, that promise is adopted by the async function's result *after*
control has left the `try`, so a rejected promise is **not** caught — the
overall call rejects with the promise's reason and the strategy is never
consulted.  The embedding keeps the four behaviours of one invocation
distinct so that this difference is observable.

Inside the `catch`: the strategy's `nextBackoff()` is always called first;
a NaN delay re-throws the captured error; otherwise the optional stop
predicate is called as `stop?.(error, attempt++)` (the attempt counter is
post-incremented exactly when a predicate is present and called) and a
`true` re-throws the captured error without waiting; otherwise
`await waitFor(delay, signal)` — a `RangeError` thrown or a rejection from
`waitFor` propagates out of the `catch` and rejects the overall call.

The signal is modelled by its state at call time (a signal that aborts
*while* a timer is pending is a real-time event outside this embedding, and
is not needed by the claims).  The `while (true)` loop is run on explicit
fuel; a run that exhausts its fuel reports `diverged`. -/

/-- Behaviour of one invocation of the user operation `fn`. -/
inductive Attempt (ε α : Type) where
  | val (v : α) : Attempt ε α
  | thrown (e : ε) : Attempt ε α
  | promiseOk (v : α) : Attempt ε α
  | promiseErr (e : ε) : Attempt ε α
  deriving DecidableEq

/-- Overall outcome of a `retry` call. -/
inductive RRes (ε α : Type) where
  | ok (v : α) : RRes ε α
  | err (e : ε) : RRes ε α
  | rangeThrown (maxv received : JSNum) : RRes ε α
  | cancelled (reason : ε) : RRes ε α
  | diverged : RRes ε α
  deriving DecidableEq

/-- Outcome of a `retry` call, instrumented with the observable
interactions: number of operation invocations, number of `nextBackoff`
calls, the (error, attempt) arguments of each stop-predicate invocation,
and each delay passed to `waitFor`. -/
structure RetryTrace (ε α : Type) where
  result : RRes ε α
  fnCalls : ℕ
  backoffCalls : ℕ
  stopCalls : List (ε × ℕ)
  waits : List JSNum
  deriving DecidableEq

/-- One loop iteration plus recursion, on fuel.  `i` is the 0-based index
of the next operation invocation (so `fn i` is its behaviour), `attempt`
the loop's `attempt` counter. -/
def retryGo (fn : ℕ → Attempt ε α) (next : σ → JSNum × σ)
    (stopP : Option (ε → ℕ → Bool)) (signal : Option (Signal ε)) :
    ℕ → σ → ℕ → ℕ → RetryTrace ε α
  | 0, _, _, _ => ⟨.diverged, 0, 0, [], []⟩
  | fuel + 1, s, i, attempt =>
    match fn i with
    | .val v => ⟨.ok v, 1, 0, [], []⟩
    | .promiseOk v => ⟨.ok v, 1, 0, [], []⟩
    | .promiseErr e => ⟨.err e, 1, 0, [], []⟩
    | .thrown e =>
      let d := (next s).1
      let s' := (next s).2
      if d.isNaN then ⟨.err e, 1, 1, [], []⟩
      else
        match stopP with
        | some p =>
          if p e attempt then ⟨.err e, 1, 1, [(e, attempt)], []⟩
          else
            match waitFor d signal with
            | .rangeThrow m rcv => ⟨.rangeThrown m rcv, 1, 1, [(e, attempt)], [d]⟩
            | .rejected reason => ⟨.cancelled reason, 1, 1, [(e, attempt)], [d]⟩
            | .timer _ =>
              let t := retryGo fn next stopP signal fuel s' (i + 1) (attempt + 1)
              ⟨t.result, t.fnCalls + 1, t.backoffCalls + 1,
                (e, attempt) :: t.stopCalls, d :: t.waits⟩
        | none =>
          match waitFor d signal with
          | .rangeThrow m rcv => ⟨.rangeThrown m rcv, 1, 1, [], [d]⟩
          | .rejected reason => ⟨.cancelled reason, 1, 1, [], [d]⟩
          | .timer _ =>
            let t := retryGo fn next stopP signal fuel s' (i + 1) attempt
            ⟨t.result, t.fnCalls + 1, t.backoffCalls + 1, t.stopCalls, d :: t.waits⟩

/-- The whole `retry` call: the strategy is reset unconditionally on entry,
then the loop starts with attempt counter 0. -/
def retryRun (fn : ℕ → Attempt ε α) (next : σ → JSNum × σ) (reset : σ → σ)
    (stopP : Option (ε → ℕ → Bool)) (signal : Option (Signal ε))
    (s0 : σ) (fuel : ℕ) : RetryTrace ε α :=
  retryGo fn next stopP signal fuel (reset s0) 0 0

/-- Mock strategy used by the theorems about the retry loop (in the style
of the unit tests' mock strategies): its state counts `nextBackoff` calls
and its `j`-th call returns `b j`. -/
def mockNext (b : ℕ → JSNum) : ℕ → JSNum × ℕ := fun s => (b s, s + 1)

/-- Reset of the mock strategy: call counter back to 0. -/
def mockReset : ℕ → ℕ := fun _ => 0

/-! ## Spec-side predicates

Written from the claims' words (not from the code), for comparison against
the code-side definitions above. -/

/-- Spec wording (C7, amended): a `nextBackoff` result that is the NaN stop
sentinel or a non-negative value (possibly +Infinity). -/
def OkDelay (x : JSNum) : Prop := x.isNaN = true ∨ NonNeg x

/-- Spec wording (C7): a `nextBackoff` result that is the NaN stop sentinel
or a *finite* non-negative value. -/
def OkDelayFin (x : JSNum) : Prop := x.isNaN = true ∨ FinNonNeg x

instance : DecidablePred OkDelay := fun x => by
  unfold OkDelay
  infer_instance

instance : DecidablePred OkDelayFin := fun x => by
  unfold OkDelayFin
  infer_instance

/-- Spec wording (C9), for a single delay parameter: invalid when
not-a-number or negative. -/
def specInvalidConstant (delay : JSNum) : Prop :=
  delay.isNaN = true ∨ jlt delay (.fin 0) = true

/-- Spec wording (C9), for a base/cap pair: invalid when either is
not-a-number, the base is negative, or the cap is below the base. -/
def specInvalidBaseCap (base cap : JSNum) : Prop :=
  base.isNaN = true ∨ jlt base (.fin 0) = true
    ∨ cap.isNaN = true ∨ jlt cap base = true

/-- Spec wording (C9), for the linear strategy's integer-typed parameters:
invalid when any is not-a-number, negative, not a safe integer, or the cap
is below the initial delay. -/
def specInvalidLinear (increment initialDelay cap : JSNum) : Prop :=
  increment.isNaN = true ∨ jlt increment (.fin 0) = true
    ∨ increment.isSafeInteger = false
    ∨ initialDelay.isNaN = true ∨ jlt initialDelay (.fin 0) = true
    ∨ initialDelay.isSafeInteger = false
    ∨ cap.isNaN = true ∨ jlt cap initialDelay = true
    ∨ cap.isSafeInteger = false

/-- Spec wording (C9), for the retry-limit decorator's count: invalid when
not-a-number, negative, or not an integer. -/
def specInvalidUpto (retries : JSNum) : Prop :=
  retries.isNaN = true ∨ jlt retries (.fin 0) = true
    ∨ retries.isInteger = false

/-! ## Helper lemmas -/

/-- Every string is contained in `a ++ s ++ b`. -/
theorem containsStr_append (a s b : String) : ContainsStr s (a ++ s ++ b) := by
  show s.data <:+: ((a ++ s ++ b).data)
  have h : (a ++ s ++ b).data = a.data ++ s.data ++ b.data := by
    simp [String.data_append]
  rw [h]
  exact ⟨a.data, b.data, by simp⟩

/-- A string whose text equals `a ++ s ++ b` contains `s`. -/
theorem containsStr_of_eq (a s b hay : String) (h : hay = a ++ s ++ b) :
    ContainsStr s hay := h ▸ containsStr_append a s b

/-! ### C1 -/

/-- C1 (code-bug evidence): an operation that returns a rejected promise is
not retried.  With a constant-0 strategy and fuel 5, a deferred rejection
exits after a single invocation with zero `nextBackoff` calls (the
`return fn()` inside the `try` hands the promise out before its rejection
can reach the `catch`), while the same error thrown synchronously is
retried on every iteration with the strategy consulted each time.  The
claim — and the source's own documentation — say both failure shapes are
handled uniformly by consulting the strategy. -/
theorem retry_unawaited_rejection_skips_strategy :
    retryRun (ε := ℕ) (α := ℕ) (fun _ => .promiseErr 7)
        (constantNext (.fin 0)) constantReset none none () 5
      = ⟨.err 7, 1, 0, [], []⟩ ∧
    retryRun (ε := ℕ) (α := ℕ) (fun _ => .thrown 7)
        (constantNext (.fin 0)) constantReset none none () 5
      = ⟨.diverged, 5, 5, [], [.fin 0, .fin 0, .fin 0, .fin 0, .fin 0]⟩ := by
  decide

/-! ### C2 -/

/-- C2 (counterexample): with an already-aborted handle but a duration of
2^31, the outcome is the range error, not a rejection carrying the
handle's cancellation reason — the range check runs first. -/
theorem waitFor_already_aborted_over_limit_counterexample :
    (Signal.aborted (ε := ℕ) ⟨true, 7⟩ = true) ∧
    waitFor (ε := ℕ) (.fin 2147483648) (some ⟨true, 7⟩) ≠ .rejected 7 ∧
    waitFor (ε := ℕ) (.fin 2147483648) (some ⟨true, 7⟩)
      = .rangeThrow INT32_MAX (.fin 2147483648) := by
  decide

/-- C2 (amended): for every call whose duration does not exceed the
maximum timer delay, an already-cancelled handle makes the outcome a
rejection carrying the handle's cancellation reason, and no timer is
started. -/
theorem waitFor_already_aborted_rejects_with_reason (ε : Type) (delay : JSNum)
    (s : Signal ε) (hab : s.aborted = true)
    (hle : jgt delay INT32_MAX = false) :
    waitFor delay (some s) = .rejected s.reason ∧
    (waitFor delay (some s)).timerStarted = false := by
  unfold waitFor
  rw [hle]
  simp [hab, WaitResult.timerStarted]

/-- C2 witness: the amended theorem at duration 5000 and an aborted handle
with reason 42. -/
theorem waitFor_already_aborted_rejects_with_reason_witness :
    waitFor (ε := ℕ) (.fin 5000) (some ⟨true, 42⟩) = .rejected 42 ∧
    (waitFor (ε := ℕ) (.fin 5000) (some ⟨true, 42⟩)).timerStarted = false :=
  waitFor_already_aborted_rejects_with_reason ℕ (.fin 5000) ⟨true, 42⟩ rfl
    (by decide)

/-! ### C6 -/

/-- C6: a duration of 2^31 = 2147483648 fails with the range error before
any timer is scheduled, whatever the signal, and the error's message
contains both the maximum 2147483647 and the requested value; a duration
of exactly 2^31 - 1 never triggers that error. -/
theorem waitFor_int32_boundary (ε : Type) (sig sg : Option (Signal ε)) :
    waitFor (.fin 2147483648) sig = .rangeThrow INT32_MAX (.fin 2147483648) ∧
    (waitFor (.fin 2147483648) sig).timerStarted = false ∧
    ContainsStr "2147483647" (rangeMessage INT32_MAX (.fin 2147483648)) ∧
    ContainsStr "2147483648" (rangeMessage INT32_MAX (.fin 2147483648)) ∧
    (waitFor (.fin 2147483647) sg).isRangeThrow = false := by
  have hgt : jgt (JSNum.fin 2147483648) INT32_MAX = true := by decide
  have hngt : jgt (JSNum.fin 2147483647) INT32_MAX = false := by decide
  refine ⟨?_, ?_, by decide, by decide, ?_⟩
  · unfold waitFor
    rw [hgt]
    rfl
  · unfold waitFor
    rw [hgt]
    rfl
  · unfold waitFor
    rw [hngt]
    cases sg with
    | none => rfl
    | some s =>
      cases h : s.aborted <;> simp [h, WaitResult.isRangeThrow]

/-! ### C5 -/

/-- State of the mock strategy after `n` calls: the call count advanced by
`n`. -/
theorem stateAfter_mock (b : ℕ → JSNum) (s : ℕ) :
    ∀ n, stateAfter (mockNext b) n s = s + n := by
  intro n
  induction n with
  | zero => rfl
  | succ n ih => simp [stateAfter, ih, mockNext, Nat.add_assoc]

/-- Output of the mock strategy's `n`-th call. -/
theorem outAt_mock (b : ℕ → JSNum) (s n : ℕ) :
    outAt (mockNext b) n s = b (s + n) := by
  unfold outAt
  rw [stateAfter_mock]
  rfl

/-- State of the retry-limit decorator after `j` calls: the counter has
been decremented `j` times, and the wrapped strategy has advanced
`min j n` times (it is never consulted once the counter is exhausted). -/
theorem stateAfter_upto (σ : Type) (innerNext : σ → JSNum × σ)
    (innerInit : σ) (n : ℕ) :
    ∀ j, stateAfter (uptoNext innerNext) j (uptoInit (n : ℤ) innerInit)
      = ((n : ℤ) - j, stateAfter innerNext (min j n) innerInit) := by
  intro j
  induction j with
  | zero => simp [stateAfter, uptoInit]
  | succ j ih =>
    simp only [stateAfter]
    rw [ih]
    by_cases h : (n : ℤ) - j ≤ 0
    · have hnj : n ≤ j := by omega
      rw [min_eq_right hnj, min_eq_right (by omega : n ≤ j + 1)]
      simp only [uptoNext, if_pos h]
      refine Prod.ext ?_ rfl
      push_cast
      omega
    · have hjn : j < n := by omega
      rw [min_eq_left hjn.le, min_eq_left (by omega : j + 1 ≤ n)]
      simp only [uptoNext, if_neg h]
      refine Prod.ext ?_ ?_
      · push_cast
        omega
      · simp [stateAfter]

/-- C5: the retry-limit decorator with limit `n` delegates its first `n`
calls to the wrapped strategy unchanged; every later call returns the NaN
sentinel without consulting the wrapped strategy (whose state stays where
the `n`-th call left it).  Concretely, with `n = 2` over a call-counting
constant-1000 strategy the sequence is 1000, 1000, then NaN forever with
the inner call count pinned at 2; with `n = 0` the very first call is NaN
and the inner strategy is never invoked. -/
theorem upto_delegates_then_stops :
    (∀ (σ : Type) (innerNext : σ → JSNum × σ) (innerInit : σ) (n j : ℕ),
        j < n →
        outAt (uptoNext innerNext) j (uptoInit (n : ℤ) innerInit)
          = outAt innerNext j innerInit) ∧
    (∀ (σ : Type) (innerNext : σ → JSNum × σ) (innerInit : σ) (n j : ℕ),
        n ≤ j →
        outAt (uptoNext innerNext) j (uptoInit (n : ℤ) innerInit) = .nan ∧
        (stateAfter (uptoNext innerNext) j (uptoInit (n : ℤ) innerInit)).2
          = stateAfter innerNext n innerInit) ∧
    (outAt (uptoNext (mockNext fun _ => .fin 1000)) 0 (uptoInit ((2 : ℕ) : ℤ) 0)
      = .fin 1000) ∧
    (outAt (uptoNext (mockNext fun _ => .fin 1000)) 1 (uptoInit ((2 : ℕ) : ℤ) 0)
      = .fin 1000) ∧
    (∀ j, 2 ≤ j →
        outAt (uptoNext (mockNext fun _ => .fin 1000)) j (uptoInit ((2 : ℕ) : ℤ) 0)
          = .nan ∧
        (stateAfter (uptoNext (mockNext fun _ => .fin 1000)) j
          (uptoInit ((2 : ℕ) : ℤ) 0)).2 = 2) ∧
    (outAt (uptoNext (mockNext fun _ => .fin 1000)) 0 (uptoInit ((0 : ℕ) : ℤ) 0)
        = .nan ∧
      (stateAfter (uptoNext (mockNext fun _ => .fin 1000)) 0
        (uptoInit ((0 : ℕ) : ℤ) 0)).2 = 0) := by
  have hdel : ∀ (σ : Type) (innerNext : σ → JSNum × σ) (innerInit : σ)
      (n j : ℕ), j < n →
      outAt (uptoNext innerNext) j (uptoInit (n : ℤ) innerInit)
        = outAt innerNext j innerInit := by
    intro σ innerNext innerInit n j hj
    unfold outAt
    rw [stateAfter_upto]
    have h : ¬((n : ℤ) - j ≤ 0) := by omega
    rw [min_eq_left hj.le]
    simp only [uptoNext]
    rw [if_neg h]
  have hstop : ∀ (σ : Type) (innerNext : σ → JSNum × σ) (innerInit : σ)
      (n j : ℕ), n ≤ j →
      outAt (uptoNext innerNext) j (uptoInit (n : ℤ) innerInit) = .nan ∧
      (stateAfter (uptoNext innerNext) j (uptoInit (n : ℤ) innerInit)).2
        = stateAfter innerNext n innerInit := by
    intro σ innerNext innerInit n j hj
    have h : (n : ℤ) - j ≤ 0 := by omega
    constructor
    · unfold outAt
      rw [stateAfter_upto]
      simp only [uptoNext]
      rw [if_pos h]
    · rw [stateAfter_upto, min_eq_right hj]
  refine ⟨hdel, hstop, by decide, by decide, ?_, by decide⟩
  intro j hj
  have h := hstop ℕ (mockNext fun _ => .fin 1000) 0 2 j hj
  refine ⟨h.1, ?_⟩
  rw [h.2, stateAfter_mock]

/-- C5 witness: the general conjuncts at the limit 3 over a call-counting
constant-7 strategy, at call indices 1 (delegating) and 5 (stopped). -/
theorem upto_delegates_then_stops_witness :
    outAt (uptoNext (mockNext fun _ => .fin 7)) 1 (uptoInit ((3 : ℕ) : ℤ) 0)
      = outAt (mockNext fun _ => .fin 7) 1 0 ∧
    outAt (uptoNext (mockNext fun _ => .fin 7)) 5 (uptoInit ((3 : ℕ) : ℤ) 0) = .nan :=
  ⟨upto_delegates_then_stops.1 ℕ (mockNext fun _ => .fin 7) 0 3 1 (by decide),
   (upto_delegates_then_stops.2.1 ℕ (mockNext fun _ => .fin 7) 0 3 5
     (by decide)).1⟩

/-! ### C8 -/

/-- C8: every strategy's `resetBackoff` restores exactly the state its
constructor initialised, from any state whatever; hence the call sequence
after a reset equals that of a fresh instance (for random strategies, with
the same draws), and in particular `nextBackoff`-`resetBackoff`-
`nextBackoff` yields the same value twice.  For the retry-limit decorator
this holds whenever the wrapped strategy's reset restores its own
baseline. -/
theorem reset_restores_baseline :
    (∀ s, constantReset s = ()) ∧
    (∀ s, zeroReset s = ()) ∧
    (∀ s, haltReset s = ()) ∧
    (∀ s, expReset s = expInit) ∧
    (∀ s, linReset s = linInit) ∧
    (∀ base s, fibReset base s = fibInit base) ∧
    (∀ s, fullJitterReset s = fullJitterInit) ∧
    (∀ s, equalJitterReset s = equalJitterInit) ∧
    (∀ base s, decorReset base s = decorInit base) ∧
    (∀ (σ : Type) (retries : ℤ) (innerInit : σ) (innerReset : σ → σ),
        (∀ t, innerReset t = innerInit) →
        ∀ s, uptoReset retries innerReset s = uptoInit retries innerInit) ∧
    (∀ (σ : Type) (next : σ → JSNum × σ) (reset : σ → σ) (s0 : σ),
        (∀ s, reset s = s0) →
        ∀ s n, outAt next n (reset s) = outAt next n s0) ∧
    (∀ (σ : Type) (next : ℚ → σ → JSNum × σ) (reset : σ → σ) (s0 : σ),
        (∀ s, reset s = s0) →
        ∀ s rs n, outAtR next rs n (reset s) = outAtR next rs n s0) ∧
    (∀ (σ : Type) (next : σ → JSNum × σ) (reset : σ → σ) (s0 : σ),
        (∀ s, reset s = s0) →
        (next (reset (next s0).2)).1 = (next s0).1) ∧
    (∀ (σ : Type) (next : ℚ → σ → JSNum × σ) (reset : σ → σ) (s0 : σ)
        (r : ℚ),
        (∀ s, reset s = s0) →
        (next r (reset (next r s0).2)).1 = (next r s0).1) := by
  refine ⟨fun _ => rfl, fun _ => rfl, fun _ => rfl, fun _ => rfl,
    fun _ => rfl, fun _ _ => rfl, fun _ => rfl, fun _ => rfl,
    fun _ _ => rfl, ?_, ?_, ?_, ?_, ?_⟩
  · intro σ retries innerInit innerReset h s
    cases s with
    | mk a t => simp [uptoReset, uptoInit, h t]
  · intro σ next reset s0 h s n
    rw [h s]
  · intro σ next reset s0 h s rs n
    rw [h s]
  · intro σ next reset s0 h
    rw [h]
  · intro σ next reset s0 r h
    rw [h]

/-- C8 witness: the decorator conjunct over a constant strategy from a
scrambled state, and the deterministic next-reset-next conjunct for the
exponential strategy with base 100, cap 500. -/
theorem reset_restores_baseline_witness :
    uptoReset 2 constantReset (-5, ()) = uptoInit 2 () ∧
    (expNext (.fin 100) (.fin 500)
        (expReset (expNext (.fin 100) (.fin 500) expInit).2)).1
      = (expNext (.fin 100) (.fin 500) expInit).1 :=
  ⟨reset_restores_baseline.2.2.2.2.2.2.2.2.2.1 Unit 2 () constantReset
      (fun _ => rfl) (-5, ()),
   reset_restores_baseline.2.2.2.2.2.2.2.2.2.2.2.2.1 ℕ
      (expNext (.fin 100) (.fin 500)) expReset expInit (fun _ => rfl)⟩

/-! ### C9 -/

/-- Every string is a substring of `a ++ s`. -/
theorem containsStr_suffix (a s : String) : ContainsStr s (a ++ s) := by
  show s.data <:+: (a ++ s).data
  have h : (a ++ s).data = a.data ++ s.data := by simp [String.data_append]
  rw [h]
  exact ⟨a.data, [], by simp⟩

/-- A safe integer is not NaN. -/
theorem isNaN_false_of_isSafeInteger (x : JSNum)
    (h : x.isSafeInteger = true) : x.isNaN = false := by
  cases x <;> simp_all [JSNum.isSafeInteger, JSNum.isNaN]

/-- An integer is not NaN. -/
theorem isNaN_false_of_isInteger (x : JSNum)
    (h : x.isInteger = true) : x.isNaN = false := by
  cases x <;> simp_all [JSNum.isInteger, JSNum.isNaN]

/-- C9: construction succeeds exactly when no parameter violates that
strategy's documented constraints — NaN, negative, cap below base (or
initial delay), and for integer-typed parameters non-(safe-)integer —
and every validation error's message carries the offending value (spelled
"NaN" for the NaN checks, where the offending value is NaN itself) next to
the violated constraint's wording.  `mkExponential` is also the exact
validation of the Fibonacci, FullJitter, EqualJitter and
DecorrelatedJitter constructors.  The `nextBackoff` embeddings are total
functions, mirroring that no `nextBackoff` in the source contains a
throw, so a first call after a successful construction cannot raise a
validation error. -/
theorem construction_validation :
    (∀ delay, mkConstant delay = .ok () ↔ ¬specInvalidConstant delay) ∧
    (∀ base cap,
        mkExponential base cap = .ok () ↔ ¬specInvalidBaseCap base cap) ∧
    (∀ increment initialDelay cap,
        mkLinear increment initialDelay cap = .ok ()
          ↔ ¬specInvalidLinear increment initialDelay cap) ∧
    (∀ retries, mkUpto retries = .ok () ↔ ¬specInvalidUpto retries) ∧
    (∀ er : VErr, ContainsStr er.offender.jrepr er.message) := by
  refine ⟨?_, ?_, ?_, ?_, ?_⟩
  · intro delay
    unfold mkConstant specInvalidConstant
    split_ifs with h1 h2 <;> simp_all
  · intro base cap
    unfold mkExponential specInvalidBaseCap
    split_ifs with h1 h2 h3 h4 <;> simp_all
  · intro increment initialDelay cap
    unfold mkLinear specInvalidLinear
    split_ifs with h1 h2 h3 h4 h5 h6 <;>
      simp_all [isNaN_false_of_isSafeInteger]
  · intro retries
    unfold mkUpto specInvalidUpto
    split_ifs with h1 h2 h3 <;> simp_all [isNaN_false_of_isInteger]
  · intro er
    cases er with
    | notNaN p =>
      exact containsStr_of_eq (p ++ " must not be ") "NaN" "" _
        (by simp [VErr.message])
    | nonNeg p v =>
      exact containsStr_suffix (p ++ " must be 0 or greater, received: ")
        v.jrepr
    | capGeBase c b =>
      exact containsStr_of_eq
        "Cap must be greater than or equal to base, received cap: "
        c.jrepr (", base: " ++ b.jrepr) _
        (by simp [VErr.message, String.append_assoc])
    | capGeInitial c i =>
      exact containsStr_of_eq
        "Cap must be greater than or equal to initial delay, received cap: "
        c.jrepr (", initial delay: " ++ i.jrepr) _
        (by simp [VErr.message, String.append_assoc])
    | safeInteger p v =>
      exact containsStr_suffix (p ++ " must be a safe integer, received: ")
        v.jrepr
    | integer p v =>
      exact containsStr_suffix (p ++ " must be an integer, received: ")
        v.jrepr

/-! ### C3 -/

/-- Prepending the value at `s` to the shifted range of `m` values equals
the range of `m + 1` values. -/
theorem cons_map_range_delay (b : ℕ → JSNum) (s m : ℕ) :
    b s :: (List.range m).map (fun j => b (s + 1 + j))
      = (List.range (m + 1)).map (fun j => b (s + j)) := by
  rw [List.range_succ_eq_map, List.map_cons, List.map_map]
  refine congrArg₂ _ (by rw [Nat.add_zero]) ?_
  apply List.map_congr_left
  intro j hj
  simp only [Function.comp]
  rw [show s + 1 + j = s + (j + 1) from by omega]

/-- Same shift for the (error, index) pairs handed to a stop predicate. -/
theorem cons_map_range_err (ε : Type) (e : ℕ → ε) (i m : ℕ) :
    ((e i, i) : ε × ℕ) :: (List.range m).map (fun j => (e (i + 1 + j), i + 1 + j))
      = (List.range (m + 1)).map (fun j => (e (i + j), i + j)) := by
  rw [List.range_succ_eq_map, List.map_cons, List.map_map]
  refine congrArg₂ _ (by rw [Nat.add_zero]) ?_
  apply List.map_congr_left
  intro j hj
  simp only [Function.comp]
  rw [show i + 1 + j = i + (j + 1) from by omega]

/-- Run of the retry loop without stop predicate or signal, on an
operation that always throws synchronously and a mock strategy whose
`m`-th delay (counting from its state `s`) is NaN and whose earlier delays
are valid: the loop performs `m + 1` iterations and surfaces the last
error. -/
theorem retryGo_thrown_nostop (ε α : Type) (e : ℕ → ε) (b : ℕ → JSNum) :
    ∀ (m fuel s i a : ℕ), m < fuel →
    (∀ j, j < m →
      (b (s + j)).isNaN = false ∧ jgt (b (s + j)) INT32_MAX = false) →
    (b (s + m)).isNaN = true →
    retryGo (α := α) (fun idx => .thrown (e idx)) (mockNext b) none none
        fuel s i a
      = ⟨.err (e (i + m)), m + 1, m + 1, [],
          (List.range m).map (fun j => b (s + j))⟩ := by
  intro m
  induction m with
  | zero =>
    intro fuel s i a hf hgood hnan
    obtain ⟨f, rfl⟩ : ∃ f, fuel = f + 1 := ⟨fuel - 1, by omega⟩
    rw [Nat.add_zero] at hnan
    simp [retryGo, mockNext, hnan]
  | succ m ih =>
    intro fuel s i a hf hgood hnan
    obtain ⟨f, rfl⟩ : ∃ f, fuel = f + 1 := ⟨fuel - 1, by omega⟩
    have h0 := hgood 0 (Nat.succ_pos m)
    rw [Nat.add_zero] at h0
    have hgood1 : ∀ j, j < m →
        (b (s + 1 + j)).isNaN = false ∧
        jgt (b (s + 1 + j)) INT32_MAX = false := by
      intro j hj
      have h := hgood (j + 1) (by omega)
      rwa [show s + (j + 1) = s + 1 + j by omega] at h
    have hnan1 : (b (s + 1 + m)).isNaN = true := by
      rwa [show s + (m + 1) = s + 1 + m by omega] at hnan
    have hrec := ih f (s + 1) (i + 1) a (by omega) hgood1 hnan1
    rw [show i + (m + 1) = i + 1 + m from by omega,
      ← cons_map_range_delay b s m]
    simp only [retryGo, mockNext, h0.1, Bool.false_eq_true, if_false,
      waitFor, h0.2]
    rw [hrec]

/-- C3: an operation failing (synchronously) on every invocation, with a
strategy whose `k`-th `nextBackoff` call is the NaN sentinel and whose
earlier calls are valid delays: the operation is invoked exactly `k`
times, `nextBackoff` is called exactly `k` times, and the overall result
fails with the error produced by the `k`-th invocation. -/
theorem retry_exhaustion_surfaces_kth_error (ε α : Type) (e : ℕ → ε)
    (b : ℕ → JSNum) (k fuel : ℕ) (hk : 0 < k) (hf : k ≤ fuel)
    (hgood : ∀ j, j + 1 < k →
      (b j).isNaN = false ∧ jgt (b j) INT32_MAX = false)
    (hnan : (b (k - 1)).isNaN = true) :
    retryRun (α := α) (fun i => .thrown (e i)) (mockNext b) mockReset
        none none 0 fuel
      = ⟨.err (e (k - 1)), k, k, [], (List.range (k - 1)).map b⟩ := by
  obtain ⟨m, rfl⟩ : ∃ m, k = m + 1 := ⟨k - 1, by omega⟩
  unfold retryRun mockReset
  have h := retryGo_thrown_nostop ε α e b m fuel 0 0 0 (by omega)
    (fun j hj => by simpa using hgood j (by omega))
    (by simpa using hnan)
  rw [h]
  simp

/-- C3 witness: two valid zero delays then the sentinel on the third call
(`k = 3`): three invocations, the third invocation's error surfaces. -/
theorem retry_exhaustion_surfaces_kth_error_witness :
    retryRun (ε := ℕ) (α := ℕ) (fun i => .thrown i)
        (mockNext fun j => if j < 2 then .fin 0 else .nan) mockReset
        none none 0 3
      = ⟨.err 2, 3, 3, [],
          (List.range 2).map fun j => if j < 2 then .fin 0 else .nan⟩ :=
  retry_exhaustion_surfaces_kth_error ℕ ℕ (fun i => i)
    (fun j => if j < 2 then .fin 0 else .nan) 3 3 (by decide) (by decide)
    (fun j hj => by
      have : j = 0 ∨ j = 1 := by omega
      rcases this with h | h <;> subst h <;> exact ⟨by decide, by decide⟩)
    (by decide)

/-! ### C4 -/

/-- Run of the retry loop with a stop predicate, no signal, an operation
that always throws synchronously, a mock strategy with valid delays for
the first `m` failures and a non-NaN delay at failure `m`, and a predicate
returning false before index `m` and true at it: the loop stops at the
`m`-th predicate check, surfacing that error, the predicate having been
called with consecutive 0-based indices, and only the first `m` delays
having been passed to the wait primitive. -/
theorem retryGo_thrown_withstop (ε α : Type) (e : ℕ → ε) (b : ℕ → JSNum)
    (p : ε → ℕ → Bool) :
    ∀ (m fuel s i : ℕ), m < fuel →
    (∀ j, j < m →
      (b (s + j)).isNaN = false ∧ jgt (b (s + j)) INT32_MAX = false) →
    (b (s + m)).isNaN = false →
    (∀ j, j < m → p (e (i + j)) (i + j) = false) →
    p (e (i + m)) (i + m) = true →
    retryGo (α := α) (fun idx => .thrown (e idx)) (mockNext b) (some p)
        none fuel s i i
      = ⟨.err (e (i + m)), m + 1, m + 1,
          (List.range (m + 1)).map (fun j => (e (i + j), i + j)),
          (List.range m).map (fun j => b (s + j))⟩ := by
  intro m
  induction m with
  | zero =>
    intro fuel s i hf hgood hnan hpf hpt
    obtain ⟨f, rfl⟩ : ∃ f, fuel = f + 1 := ⟨fuel - 1, by omega⟩
    rw [Nat.add_zero] at hnan
    rw [Nat.add_zero] at hpt
    simp [retryGo, mockNext, hnan, hpt, List.range_succ]
  | succ m ih =>
    intro fuel s i hf hgood hnan hpf hpt
    obtain ⟨f, rfl⟩ : ∃ f, fuel = f + 1 := ⟨fuel - 1, by omega⟩
    have h0 := hgood 0 (Nat.succ_pos m)
    rw [Nat.add_zero] at h0
    have hp0 := hpf 0 (Nat.succ_pos m)
    rw [Nat.add_zero] at hp0
    have hgood1 : ∀ j, j < m →
        (b (s + 1 + j)).isNaN = false ∧
        jgt (b (s + 1 + j)) INT32_MAX = false := by
      intro j hj
      have h := hgood (j + 1) (by omega)
      rwa [show s + (j + 1) = s + 1 + j by omega] at h
    have hnan1 : (b (s + 1 + m)).isNaN = false := by
      rwa [show s + (m + 1) = s + 1 + m by omega] at hnan
    have hpf1 : ∀ j, j < m → p (e (i + 1 + j)) (i + 1 + j) = false := by
      intro j hj
      have h := hpf (j + 1) (by omega)
      rwa [show i + (j + 1) = i + 1 + j by omega] at h
    have hpt1 : p (e (i + 1 + m)) (i + 1 + m) = true := by
      rwa [show i + (m + 1) = i + 1 + m by omega] at hpt
    have hrec := ih f (s + 1) (i + 1) (by omega) hgood1 hnan1 hpf1 hpt1
    rw [show i + (m + 1) = i + 1 + m from by omega,
      ← cons_map_range_err ε e i (m + 1), ← cons_map_range_delay b s m]
    simp only [retryGo, mockNext, h0.1, Bool.false_eq_true, if_false,
      hp0, waitFor, h0.2]
    rw [hrec]

/-- C4: with an always-(synchronously-)failing operation and valid
non-sentinel delays, the stop predicate is invoked once per failing
attempt with the captured error and a 0-based index incrementing by
exactly one; when it first returns true (at index `m`) the loop surfaces
that error and the delay computed in that iteration is never passed to
the wait primitive (only the first `m` delays are). -/
theorem retry_stop_predicate_indices_and_discard (ε α : Type) (e : ℕ → ε)
    (b : ℕ → JSNum) (p : ε → ℕ → Bool) (m fuel : ℕ) (hf : m < fuel)
    (hgood : ∀ j, j < m →
      (b j).isNaN = false ∧ jgt (b j) INT32_MAX = false)
    (hnan : (b m).isNaN = false)
    (hpf : ∀ j, j < m → p (e j) j = false)
    (hpt : p (e m) m = true) :
    retryRun (α := α) (fun i => .thrown (e i)) (mockNext b) mockReset
        (some p) none 0 fuel
      = ⟨.err (e m), m + 1, m + 1,
          (List.range (m + 1)).map (fun j => (e j, j)),
          (List.range m).map b⟩ := by
  unfold retryRun mockReset
  have h := retryGo_thrown_withstop ε α e b p m fuel 0 0 hf
    (fun j hj => by simpa using hgood j hj)
    (by simpa using hnan)
    (fun j hj => by simpa using hpf j hj)
    (by simpa using hpt)
  rw [h]
  simp

/-- C4 witness: predicate false at index 0, true at index 1, constant
valid delay: two predicate calls at indices 0 and 1, one wait, error of
attempt 1 surfaces. -/
theorem retry_stop_predicate_indices_and_discard_witness :
    retryRun (ε := ℕ) (α := ℕ) (fun i => .thrown i)
        (mockNext fun _ => .fin 0) mockReset
        (some fun _ a => decide (a = 1)) none 0 2
      = ⟨.err 1, 2, 2, (List.range 2).map (fun j => (j, j)),
          (List.range 1).map fun _ => JSNum.fin 0⟩ :=
  retry_stop_predicate_indices_and_discard ℕ ℕ (fun i => i)
    (fun _ => .fin 0) (fun _ a => decide (a = 1)) 1 2 (by decide)
    (fun j hj => ⟨rfl, rfl⟩) (by decide)
    (fun j hj => by
      have : j = 0 := by omega
      subst this
      decide)
    (by decide)

/-! ### JSNum arithmetic lemmas -/

/-- A finite non-negative value is non-negative. -/
theorem finNonNeg_nonNeg {x : JSNum} (h : FinNonNeg x) : NonNeg x := by
  cases x <;> simp_all [FinNonNeg, NonNeg]

/-- A non-negative value is not NaN. -/
theorem nonNeg_isNaN_false {x : JSNum} (h : NonNeg x) : x.isNaN = false := by
  cases x <;> simp_all [NonNeg, JSNum.isNaN]

/-- Minimum of non-negative values is non-negative. -/
theorem nonNeg_jmin {a b : JSNum} (ha : NonNeg a) (hb : NonNeg b) :
    NonNeg (jmin a b) := by
  cases a <;> cases b <;>
    simp_all [NonNeg, jmin, JSNum.isNaN, jlt] <;>
    split_ifs <;> simp_all [NonNeg]

/-- Minimum with a finite non-negative left argument is finite
non-negative when the right argument is non-negative. -/
theorem finNonNeg_jmin {a b : JSNum} (ha : FinNonNeg a) (hb : NonNeg b) :
    FinNonNeg (jmin a b) := by
  cases a <;> cases b <;>
    simp_all [FinNonNeg, NonNeg, jmin, JSNum.isNaN, jlt] <;>
    split_ifs <;> simp_all [FinNonNeg]

/-- Minimum with a finite non-negative right argument is finite
non-negative when the left argument is non-negative. -/
theorem finNonNeg_jmin_right {a b : JSNum} (ha : NonNeg a)
    (hb : FinNonNeg b) : FinNonNeg (jmin a b) := by
  cases a <;> cases b <;>
    simp_all [FinNonNeg, NonNeg, jmin, JSNum.isNaN, jlt] <;>
    split_ifs <;> simp_all [FinNonNeg]

/-- Multiplying a non-negative value by a power of two keeps it
non-negative (never NaN: the power is finite positive). -/
theorem nonNeg_jmul_pow2 {b : JSNum} (hb : NonNeg b) (n : ℕ) :
    NonNeg (jmul b (jpow2 n)) := by
  have h2 : (0 : ℚ) < 2 ^ n := pow_pos (by norm_num) n
  cases b with
  | pinf => simp [jmul, jpow2, h2, h2.ne', NonNeg]
  | fin q =>
    simp only [jmul, jpow2, NonNeg] at hb ⊢
    exact mul_nonneg hb h2.le
  | nan => simp [NonNeg] at hb
  | ninf => simp [NonNeg] at hb

/-- Finite version of the previous lemma. -/
theorem finNonNeg_jmul_pow2 {q : ℚ} (hq : 0 ≤ q) (n : ℕ) :
    FinNonNeg (jmul (.fin q) (jpow2 n)) := by
  have h2 : (0 : ℚ) < 2 ^ n := pow_pos (by norm_num) n
  simp only [jmul, jpow2, FinNonNeg]
  exact mul_nonneg hq h2.le

/-- Sum of non-negative values is non-negative. -/
theorem nonNeg_jadd {a b : JSNum} (ha : NonNeg a) (hb : NonNeg b) :
    NonNeg (jadd a b) := by
  cases a <;> cases b <;> simp_all [NonNeg, jadd] <;> linarith

/-- Sum of finite non-negative values is finite non-negative. -/
theorem finNonNeg_jadd {a b : JSNum} (ha : FinNonNeg a) (hb : FinNonNeg b) :
    FinNonNeg (jadd a b) := by
  cases a <;> cases b <;> simp_all [FinNonNeg, jadd] <;> linarith

/-- Floor preserves "NaN or non-negative". -/
theorem okDelay_jfloor {x : JSNum} (h : OkDelay x) : OkDelay (jfloor x) := by
  cases x with
  | nan => exact Or.inl rfl
  | pinf => exact Or.inr trivial
  | ninf => rcases h with h | h <;> simp_all [JSNum.isNaN, NonNeg]
  | fin q =>
    rcases h with h | h
    · simp [JSNum.isNaN] at h
    · right
      simp only [NonNeg] at h
      simp only [jfloor, NonNeg]
      have : (0 : ℤ) ≤ ⌊q⌋ := Int.le_floor.mpr (by exact_mod_cast h)
      exact_mod_cast this

/-- Floor preserves "NaN or finite non-negative". -/
theorem okDelayFin_jfloor {x : JSNum} (h : OkDelayFin x) :
    OkDelayFin (jfloor x) := by
  cases x with
  | nan => exact Or.inl rfl
  | pinf => rcases h with h | h <;> simp_all [JSNum.isNaN, FinNonNeg]
  | ninf => rcases h with h | h <;> simp_all [JSNum.isNaN, FinNonNeg]
  | fin q =>
    rcases h with h | h
    · simp [JSNum.isNaN] at h
    · right
      simp only [FinNonNeg] at h
      simp only [jfloor, FinNonNeg]
      have : (0 : ℤ) ≤ ⌊q⌋ := Int.le_floor.mpr (by exact_mod_cast h)
      exact_mod_cast this

/-- Scaling a non-negative value by a non-negative draw gives NaN (when
the draw is 0 and the value infinite) or a non-negative value. -/
theorem okDelay_jmul_rand {r : ℚ} (hr : 0 ≤ r) {M : JSNum}
    (hM : NonNeg M) : OkDelay (jmul (.fin r) M) := by
  cases M with
  | pinf =>
    rcases eq_or_lt_of_le hr with h0 | h0
    · left
      simp [jmul, ← h0, JSNum.isNaN]
    · right
      simp [jmul, h0.ne', h0, NonNeg]
  | fin q =>
    right
    simp only [NonNeg] at hM
    simp only [jmul, NonNeg]
    exact mul_nonneg hr hM
  | nan => simp [NonNeg] at hM
  | ninf => simp [NonNeg] at hM

/-- Finite version: scaling a finite non-negative value by a non-negative
draw. -/
theorem finNonNeg_jmul_rand {r : ℚ} (hr : 0 ≤ r) {q : ℚ} (hq : 0 ≤ q) :
    FinNonNeg (jmul (.fin r) (.fin q)) := by
  simp only [jmul, FinNonNeg]
  exact mul_nonneg hr hq

/-- Halving preserves non-negativity. -/
theorem nonNeg_jhalf {x : JSNum} (h : NonNeg x) : NonNeg (jhalf x) := by
  cases x <;> simp_all [NonNeg, jhalf] <;> linarith

/-- Halving preserves finite non-negativity. -/
theorem finNonNeg_jhalf {x : JSNum} (h : FinNonNeg x) :
    FinNonNeg (jhalf x) := by
  cases x <;> simp_all [FinNonNeg, jhalf] <;> linarith

/-- Adding a non-negative value on the left preserves "NaN or
non-negative". -/
theorem okDelay_jadd_left {a b : JSNum} (ha : NonNeg a) (hb : OkDelay b) :
    OkDelay (jadd a b) := by
  rcases hb with hb | hb
  · cases b <;> simp_all [JSNum.isNaN]
    cases a <;> simp_all [NonNeg, jadd, OkDelay, JSNum.isNaN]
  · exact Or.inr (nonNeg_jadd ha hb)

/-! ### Strategy-level lemmas -/

/-- Successful base/cap validation yields non-negative base and cap. -/
theorem mkExp_ok_nonNeg {base cap : JSNum}
    (h : mkExponential base cap = .ok ()) : NonNeg base ∧ NonNeg cap := by
  unfold mkExponential at h
  split_ifs at h with h1 h2 h3 h4
  have hbase : NonNeg base := by
    cases base with
    | nan => simp [JSNum.isNaN] at h1
    | ninf => exact absurd rfl h2
    | pinf => trivial
    | fin q =>
      simp only [jlt, decide_eq_true_eq] at h2
      exact le_of_not_lt h2
  refine ⟨hbase, ?_⟩
  cases cap with
  | nan => simp [JSNum.isNaN] at h3
  | ninf =>
    cases base with
    | pinf => exact absurd rfl h4
    | fin q => exact absurd rfl h4
    | nan => simp [NonNeg] at hbase
    | ninf => simp [NonNeg] at hbase
  | pinf => trivial
  | fin qc =>
    cases base with
    | pinf => exact absurd rfl h4
    | fin qb =>
      simp only [jlt, decide_eq_true_eq] at h4
      simp only [NonNeg] at hbase ⊢
      linarith [le_of_not_lt h4]
    | nan => simp [NonNeg] at hbase
    | ninf => simp [NonNeg] at hbase

/-- Successful linear validation yields finite non-negative parameters
(they are safe integers). -/
theorem mkLinear_ok_fins {increment initialDelay cap : JSNum}
    (h : mkLinear increment initialDelay cap = .ok ()) :
    ∃ qi qd qc : ℚ, increment = .fin qi ∧ initialDelay = .fin qd ∧
      cap = .fin qc ∧ 0 ≤ qi ∧ 0 ≤ qd ∧ 0 ≤ qc := by
  unfold mkLinear at h
  split_ifs at h with h1 h2 h3 h4 h5 h6
  cases increment with
  | fin qi =>
    cases initialDelay with
    | fin qd =>
      cases cap with
      | fin qc =>
        refine ⟨qi, qd, qc, rfl, rfl, rfl, ?_, ?_, ?_⟩
        · simp only [jlt, decide_eq_true_eq] at h2
          exact le_of_not_lt h2
        · simp only [jlt, decide_eq_true_eq] at h4
          exact le_of_not_lt h4
        · simp only [jlt, decide_eq_true_eq] at h4 h6
          linarith [le_of_not_lt h4, le_of_not_lt h6]
      | nan => simp [JSNum.isSafeInteger] at h5
      | ninf => simp [JSNum.isSafeInteger] at h5
      | pinf => simp [JSNum.isSafeInteger] at h5
    | nan => simp [JSNum.isSafeInteger] at h3
    | ninf => simp [JSNum.isSafeInteger] at h3
    | pinf => simp [JSNum.isSafeInteger] at h3
  | nan => simp [JSNum.isSafeInteger] at h1
  | ninf => simp [JSNum.isSafeInteger] at h1
  | pinf => simp [JSNum.isSafeInteger] at h1

/-- State of a counter-based step function after `n` calls. -/
theorem stateAfter_counter {next : ℕ → JSNum × ℕ}
    (h : ∀ s, (next s).2 = s + 1) : ∀ n s, stateAfter next n s = s + n := by
  intro n
  induction n with
  | zero => intro s; rfl
  | succ n ih =>
    intro s
    simp only [stateAfter, ih, h]
    omega

/-- State of a counter-based random step function after `n` calls. -/
theorem stateAfterR_counter {next : ℚ → ℕ → JSNum × ℕ}
    (h : ∀ r s, (next r s).2 = s + 1) (rs : ℕ → ℚ) :
    ∀ n s, stateAfterR next rs n s = s + n := by
  intro n
  induction n with
  | zero => intro s; rfl
  | succ n ih =>
    intro s
    simp only [stateAfterR, ih, h]
    omega

/-- Value of the exponential strategy's `n`-th call. -/
theorem outAt_expNext (base cap : JSNum) (n : ℕ) :
    outAt (expNext base cap) n expInit
      = jmin cap (jmul base (jpow2 n)) := by
  unfold outAt expInit
  rw [stateAfter_counter (fun s => rfl)]
  simp [expNext]

/-- Value of the linear strategy's `n`-th call. -/
theorem outAt_linNext (increment initialDelay cap : JSNum) (n : ℕ) :
    outAt (linNext increment initialDelay cap) n linInit
      = jmin cap (jadd initialDelay (jmul increment (.fin (n : ℚ)))) := by
  unfold outAt linInit
  rw [stateAfter_counter (fun s => rfl)]
  simp [linNext]

/-- Value of the full-jitter strategy's `n`-th call. -/
theorem outAtR_fullJitter (base cap : JSNum) (rs : ℕ → ℚ) (n : ℕ) :
    outAtR (fullJitterNext base cap) rs n fullJitterInit
      = jfloor (jmul (.fin (rs n)) (jmin cap (jmul base (jpow2 n)))) := by
  unfold outAtR fullJitterInit
  rw [stateAfterR_counter (fun r s => rfl)]
  simp [fullJitterNext]

/-- Value of the equal-jitter strategy's `n`-th call. -/
theorem outAtR_equalJitter (base cap : JSNum) (rs : ℕ → ℚ) (n : ℕ) :
    outAtR (equalJitterNext base cap) rs n equalJitterInit
      = jfloor (jadd (jhalf (jmin cap (jmul base (jpow2 n))))
          (jmul (.fin (rs n)) (jhalf (jmin cap (jmul base (jpow2 n)))))) := by
  unfold outAtR equalJitterInit
  rw [stateAfterR_counter (fun r s => rfl)]
  simp [equalJitterNext]

/-- Both Fibonacci state fields stay non-negative. -/
theorem fib_state_nonNeg {base : JSNum} (cap : JSNum) (hb : NonNeg base) :
    ∀ n, NonNeg (stateAfter (fibNext cap) n (fibInit base)).previousDelay ∧
      NonNeg (stateAfter (fibNext cap) n (fibInit base)).currentDelay := by
  intro n
  induction n with
  | zero =>
    constructor
    · show NonNeg (.fin 0)
      simp [NonNeg]
    · exact hb
  | succ n ih =>
    simp only [stateAfter, fibNext]
    exact ⟨ih.2, nonNeg_jadd ih.1 ih.2⟩

/-- With a finite base both Fibonacci state fields stay finite
non-negative. -/
theorem fib_state_finNonNeg {qb : ℚ} (cap : JSNum) (hb : 0 ≤ qb) :
    ∀ n,
      FinNonNeg (stateAfter (fibNext cap) n (fibInit (.fin qb))).previousDelay ∧
      FinNonNeg (stateAfter (fibNext cap) n (fibInit (.fin qb))).currentDelay := by
  intro n
  induction n with
  | zero =>
    constructor
    · show FinNonNeg (.fin 0)
      simp [FinNonNeg]
    · exact hb
  | succ n ih =>
    simp only [stateAfter, fibNext]
    exact ⟨ih.2, finNonNeg_jadd ih.1 ih.2⟩

/-- One step of the decorrelated-jitter strategy from a "NaN or
non-negative" previous delay yields a "NaN or non-negative" delay (which
is both the returned value and the new previous delay). -/
theorem decor_step {base cap prev : JSNum} (hb : NonNeg base)
    (hc : NonNeg cap) {r : ℚ} (hr0 : 0 ≤ r) (hr1 : r < 1)
    (hp : OkDelay prev) : OkDelay (decorNext base cap r prev).2 := by
  rcases hp with hpn | hpn
  · cases prev <;> simp_all [JSNum.isNaN]
    left
    cases base with
    | pinf => simp [decorNext, jmul, jsub, jadd, jfloor, jmin, JSNum.isNaN]
    | fin qb => simp [decorNext, jmul, jsub, jadd, jfloor, jmin, JSNum.isNaN]
    | nan => simp [NonNeg] at hb
    | ninf => simp [NonNeg] at hb
  · cases prev with
    | pinf =>
      cases base with
      | pinf =>
        left
        simp [decorNext, jmul, jsub, jadd, jfloor, jmin, JSNum.isNaN]
      | fin qb =>
        rcases eq_or_lt_of_le hr0 with h0 | h0
        · left
          simp [decorNext, jmul, jsub, jadd, jfloor, jmin, JSNum.isNaN,
            ← h0]
        · have hsub : jsub (jmul (.pinf) (.fin 3)) (.fin qb) = .pinf := by
            norm_num [jmul, jsub]
          right
          simp only [decorNext, hsub]
          simp only [jmul, h0.ne', if_neg, h0, if_pos]
          exact nonNeg_jmin hc (by simp [jadd, jfloor, NonNeg])
      | nan => simp [NonNeg] at hb
      | ninf => simp [NonNeg] at hb
    | fin q =>
      simp only [NonNeg] at hpn
      cases base with
      | pinf =>
        left
        rcases eq_or_lt_of_le hr0 with h0 | h0
        · simp [decorNext, jmul, jsub, jadd, jfloor, jmin, JSNum.isNaN,
            ← h0]
        · simp [decorNext, jmul, jsub, jadd, jfloor, jmin, JSNum.isNaN,
            h0.ne', h0]
      | fin qb =>
        simp only [NonNeg] at hb
        right
        simp only [decorNext, jmul, jsub, jadd, jfloor]
        refine nonNeg_jmin hc ?_
        simp only [NonNeg]
        have hval : 0 ≤ qb + r * (q * 3 - qb) := by nlinarith
        have : (0 : ℤ) ≤ ⌊qb + r * (q * 3 - qb)⌋ :=
          Int.le_floor.mpr (by exact_mod_cast hval)
        exact_mod_cast this
      | nan => simp [NonNeg] at hb
      | ninf => simp [NonNeg] at hb
    | nan => simp [NonNeg] at hpn
    | ninf => simp [NonNeg] at hpn

/-- With finite base and cap, one decorrelated-jitter step from a finite
non-negative previous delay yields a finite non-negative delay. -/
theorem decor_step_fin {qb qc : ℚ} {prev : JSNum} (hb : 0 ≤ qb)
    (hc : 0 ≤ qc) {r : ℚ} (hr0 : 0 ≤ r) (hr1 : r < 1)
    (hp : FinNonNeg prev) :
    FinNonNeg (decorNext (.fin qb) (.fin qc) r prev).2 := by
  cases prev with
  | fin q =>
    simp only [FinNonNeg] at hp
    simp only [decorNext, jmul, jsub, jadd, jfloor]
    refine finNonNeg_jmin (a := .fin qc) hc ?_
    refine finNonNeg_nonNeg ?_
    simp only [FinNonNeg]
    have hval : 0 ≤ qb + r * (q * 3 - qb) := by nlinarith
    have : (0 : ℤ) ≤ ⌊qb + r * (q * 3 - qb)⌋ :=
      Int.le_floor.mpr (by exact_mod_cast hval)
    exact_mod_cast this
  | nan => simp [FinNonNeg] at hp
  | ninf => simp [FinNonNeg] at hp
  | pinf => simp [FinNonNeg] at hp

/-- The decorrelated-jitter state stays "NaN or non-negative" along any
run. -/
theorem decor_state_okDelay {base cap : JSNum} (hb : NonNeg base)
    (hc : NonNeg cap) (rs : ℕ → ℚ) (hr : ∀ i, 0 ≤ rs i ∧ rs i < 1) :
    ∀ n, OkDelay (stateAfterR (decorNext base cap) rs n (decorInit base)) := by
  intro n
  induction n with
  | zero => exact Or.inr hb
  | succ n ih =>
    simp only [stateAfterR]
    exact decor_step hb hc (hr n).1 (hr n).2 ih

/-- With finite parameters the decorrelated-jitter state stays finite
non-negative along any run. -/
theorem decor_state_finNonNeg {qb qc : ℚ} (hb : 0 ≤ qb) (hc : 0 ≤ qc)
    (rs : ℕ → ℚ) (hr : ∀ i, 0 ≤ rs i ∧ rs i < 1) :
    ∀ n, FinNonNeg
      (stateAfterR (decorNext (.fin qb) (.fin qc)) rs n
        (decorInit (.fin qb))) := by
  intro n
  induction n with
  | zero => exact hb
  | succ n ih =>
    simp only [stateAfterR]
    exact decor_step_fin hb hc (hr n).1 (hr n).2 ih

/-- C3 (counterexample): a strategy whose first call returns the non-stop
delay 2^31 (finite, non-negative, not the sentinel) and whose second call
returns the sentinel (`k = 2`): the run ends after a single invocation
with the range error from the wait primitive, not after 2 invocations with
the 2nd invocation's error. -/
theorem retry_exhaustion_counterexample :
    retryRun (ε := ℕ) (α := ℕ) (fun i => .thrown i)
        (mockNext fun j => if j = 0 then .fin 2147483648 else .nan)
        mockReset none none 0 5
      = ⟨.rangeThrown INT32_MAX (.fin 2147483648), 1, 1, [],
          [.fin 2147483648]⟩ := by
  decide

/-- Successful single-delay validation yields a non-negative delay. -/
theorem mkConstant_ok_nonNeg {delay : JSNum}
    (h : mkConstant delay = .ok ()) : NonNeg delay := by
  unfold mkConstant at h
  split_ifs at h with h1 h2
  cases delay with
  | nan => simp [JSNum.isNaN] at h1
  | ninf => exact absurd rfl h2
  | pinf => trivial
  | fin q =>
    simp only [jlt, decide_eq_true_eq] at h2
    exact le_of_not_lt h2

/-- A finite non-negative value is some non-negative rational. -/
theorem finNonNeg_exists {x : JSNum} (h : FinNonNeg x) :
    ∃ q : ℚ, x = .fin q ∧ 0 ≤ q := by
  cases x <;> simp_all [FinNonNeg]

/-! ### C7 -/

/-- C7 (counterexample): the exponential strategy accepts an infinite base
(its validation passes, as the unit tests require), and its first
`nextBackoff` value is then +Infinity — neither a finite non-negative
number nor the NaN sentinel. -/
theorem backoff_infinite_base_counterexample :
    mkExponential .pinf .pinf = .ok () ∧
    outAt (expNext .pinf .pinf) 0 expInit = .pinf ∧
    ¬OkDelayFin (outAt (expNext .pinf .pinf) 0 expInit) :=
  ⟨rfl, rfl, by decide⟩

/-- C7 (amended): for every strategy constructed with valid parameters
(and, for random-based strategies, draws from a [0,1) source), every
`nextBackoff` value is the NaN sentinel or non-negative — never a
negative value; and whenever the numeric parameters are finite, the value
is moreover finite (an infinite base or cap may yield +Infinity).  The
retry-limit decorator preserves the property of whatever it wraps. -/
theorem backoff_nonnegative_outputs :
    (∀ delay n, mkConstant delay = .ok () →
        OkDelay (outAt (constantNext delay) n ())) ∧
    (∀ (q : ℚ) n, mkConstant (.fin q) = .ok () →
        OkDelayFin (outAt (constantNext (.fin q)) n ())) ∧
    (∀ n, OkDelayFin (outAt zeroNext n ())) ∧
    (∀ n, OkDelay (outAt haltNext n ())) ∧
    (∀ base cap n, mkExponential base cap = .ok () →
        OkDelay (outAt (expNext base cap) n expInit)) ∧
    (∀ (qb qc : ℚ) n, mkExponential (.fin qb) (.fin qc) = .ok () →
        OkDelayFin (outAt (expNext (.fin qb) (.fin qc)) n expInit)) ∧
    (∀ increment initialDelay cap n,
        mkLinear increment initialDelay cap = .ok () →
        OkDelayFin (outAt (linNext increment initialDelay cap) n linInit)) ∧
    (∀ base cap n, mkExponential base cap = .ok () →
        OkDelay (outAt (fibNext cap) n (fibInit base))) ∧
    (∀ (qb qc : ℚ) n, mkExponential (.fin qb) (.fin qc) = .ok () →
        OkDelayFin (outAt (fibNext (.fin qc)) n (fibInit (.fin qb)))) ∧
    (∀ base cap rs n, mkExponential base cap = .ok () →
        (∀ i, 0 ≤ rs i ∧ rs i < 1) →
        OkDelay (outAtR (fullJitterNext base cap) rs n fullJitterInit)) ∧
    (∀ (qb qc : ℚ) rs n, mkExponential (.fin qb) (.fin qc) = .ok () →
        (∀ i, 0 ≤ rs i ∧ rs i < 1) →
        OkDelayFin
          (outAtR (fullJitterNext (.fin qb) (.fin qc)) rs n
            fullJitterInit)) ∧
    (∀ base cap rs n, mkExponential base cap = .ok () →
        (∀ i, 0 ≤ rs i ∧ rs i < 1) →
        OkDelay (outAtR (equalJitterNext base cap) rs n equalJitterInit)) ∧
    (∀ (qb qc : ℚ) rs n, mkExponential (.fin qb) (.fin qc) = .ok () →
        (∀ i, 0 ≤ rs i ∧ rs i < 1) →
        OkDelayFin
          (outAtR (equalJitterNext (.fin qb) (.fin qc)) rs n
            equalJitterInit)) ∧
    (∀ base cap rs n, mkExponential base cap = .ok () →
        (∀ i, 0 ≤ rs i ∧ rs i < 1) →
        OkDelay (outAtR (decorNext base cap) rs n (decorInit base))) ∧
    (∀ (qb qc : ℚ) rs n, mkExponential (.fin qb) (.fin qc) = .ok () →
        (∀ i, 0 ≤ rs i ∧ rs i < 1) →
        OkDelayFin
          (outAtR (decorNext (.fin qb) (.fin qc)) rs n
            (decorInit (.fin qb)))) ∧
    (∀ (σ : Type) (innerNext : σ → JSNum × σ),
        (∀ t, OkDelay (innerNext t).1) →
        ∀ s, OkDelay (uptoNext innerNext s).1) := by
  refine ⟨?_, ?_, ?_, ?_, ?_, ?_, ?_, ?_, ?_, ?_, ?_, ?_, ?_, ?_, ?_, ?_⟩
  · intro delay n h
    exact Or.inr (mkConstant_ok_nonNeg h)
  · intro q n h
    exact Or.inr (mkConstant_ok_nonNeg h)
  · intro n
    exact Or.inr (le_refl 0)
  · intro n
    exact Or.inl rfl
  · intro base cap n h
    obtain ⟨hb, hc⟩ := mkExp_ok_nonNeg h
    rw [outAt_expNext]
    exact Or.inr (nonNeg_jmin hc (nonNeg_jmul_pow2 hb n))
  · intro qb qc n h
    obtain ⟨hb, hc⟩ := mkExp_ok_nonNeg h
    rw [outAt_expNext]
    exact Or.inr (finNonNeg_jmin hc (nonNeg_jmul_pow2 hb n))
  · intro increment initialDelay cap n h
    obtain ⟨qi, qd, qc, rfl, rfl, rfl, hqi, hqd, hqc⟩ := mkLinear_ok_fins h
    rw [outAt_linNext]
    have hin : NonNeg (jadd (.fin qd) (jmul (.fin qi) (.fin (n : ℚ)))) := by
      simp only [jadd, jmul, NonNeg]
      exact add_nonneg hqd (mul_nonneg hqi (Nat.cast_nonneg n))
    exact Or.inr (finNonNeg_jmin hqc hin)
  · intro base cap n h
    obtain ⟨hb, hc⟩ := mkExp_ok_nonNeg h
    unfold outAt
    simp only [fibNext]
    exact Or.inr (nonNeg_jmin hc (fib_state_nonNeg cap hb n).2)
  · intro qb qc n h
    obtain ⟨hb, hc⟩ := mkExp_ok_nonNeg h
    unfold outAt
    simp only [fibNext]
    exact Or.inr (finNonNeg_jmin hc
      (finNonNeg_nonNeg (fib_state_finNonNeg (.fin qc) hb n).2))
  · intro base cap rs n h hr
    obtain ⟨hb, hc⟩ := mkExp_ok_nonNeg h
    rw [outAtR_fullJitter]
    exact okDelay_jfloor
      (okDelay_jmul_rand (hr n).1 (nonNeg_jmin hc (nonNeg_jmul_pow2 hb n)))
  · intro qb qc rs n h hr
    obtain ⟨hb, hc⟩ := mkExp_ok_nonNeg h
    rw [outAtR_fullJitter]
    have hM : FinNonNeg (jmin (.fin qc) (jmul (.fin qb) (jpow2 n))) :=
      finNonNeg_jmin hc (nonNeg_jmul_pow2 hb n)
    rcases finNonNeg_exists hM with ⟨m, hMeq, hm⟩
    rw [hMeq]
    exact okDelayFin_jfloor (Or.inr (finNonNeg_jmul_rand (hr n).1 hm))
  · intro base cap rs n h hr
    obtain ⟨hb, hc⟩ := mkExp_ok_nonNeg h
    rw [outAtR_equalJitter]
    have hH : NonNeg (jhalf (jmin cap (jmul base (jpow2 n)))) :=
      nonNeg_jhalf (nonNeg_jmin hc (nonNeg_jmul_pow2 hb n))
    exact okDelay_jfloor
      (okDelay_jadd_left hH (okDelay_jmul_rand (hr n).1 hH))
  · intro qb qc rs n h hr
    obtain ⟨hb, hc⟩ := mkExp_ok_nonNeg h
    rw [outAtR_equalJitter]
    have hH : FinNonNeg (jhalf (jmin (.fin qc) (jmul (.fin qb) (jpow2 n)))) :=
      finNonNeg_jhalf (finNonNeg_jmin hc (nonNeg_jmul_pow2 hb n))
    rcases finNonNeg_exists hH with ⟨m, hMeq, hm⟩
    rw [hMeq]
    exact okDelayFin_jfloor
      (Or.inr (finNonNeg_jadd hm (finNonNeg_jmul_rand (hr n).1 hm)))
  · intro base cap rs n h hr
    obtain ⟨hb, hc⟩ := mkExp_ok_nonNeg h
    show OkDelay
      (decorNext base cap (rs n)
        (stateAfterR (decorNext base cap) rs n (decorInit base))).1
    have heq : (decorNext base cap (rs n)
          (stateAfterR (decorNext base cap) rs n (decorInit base))).1
        = (decorNext base cap (rs n)
            (stateAfterR (decorNext base cap) rs n (decorInit base))).2 :=
      rfl
    rw [heq]
    exact decor_step hb hc (hr n).1 (hr n).2
      (decor_state_okDelay hb hc rs hr n)
  · intro qb qc rs n h hr
    obtain ⟨hb, hc⟩ := mkExp_ok_nonNeg h
    show OkDelayFin
      (decorNext (.fin qb) (.fin qc) (rs n)
        (stateAfterR (decorNext (.fin qb) (.fin qc)) rs n
          (decorInit (.fin qb)))).1
    have heq : (decorNext (.fin qb) (.fin qc) (rs n)
          (stateAfterR (decorNext (.fin qb) (.fin qc)) rs n
            (decorInit (.fin qb)))).1
        = (decorNext (.fin qb) (.fin qc) (rs n)
            (stateAfterR (decorNext (.fin qb) (.fin qc)) rs n
              (decorInit (.fin qb)))).2 :=
      rfl
    rw [heq]
    exact Or.inr (decor_step_fin hb hc (hr n).1 (hr n).2
      (decor_state_finNonNeg hb hc rs hr n))
  · intro σ innerNext hI s
    cases s with
    | mk a t =>
      by_cases h : a ≤ 0
      · simp only [uptoNext, if_pos h]
        exact Or.inl rfl
      · simp only [uptoNext, if_neg h]
        exact hI t

/-- C7 witness: the exponential conjunct at base 100, cap 500, call 1, and
the full-jitter conjunct at base 100, cap 10000 with a constant 1/2
draw. -/
theorem backoff_nonnegative_outputs_witness :
    OkDelay (outAt (expNext (.fin 100) (.fin 500)) 1 expInit) ∧
    OkDelay (outAtR (fullJitterNext (.fin 100) (.fin 10000))
      (fun _ => 1 / 2) 2 fullJitterInit) :=
  ⟨backoff_nonnegative_outputs.2.2.2.2.1 (.fin 100) (.fin 500) 1 rfl,
   backoff_nonnegative_outputs.2.2.2.2.2.2.2.2.2.1 (.fin 100) (.fin 10000)
      (fun _ => 1 / 2) 2 rfl (fun i => ⟨by norm_num, by norm_num⟩)⟩

/-! ### C10 -/

/-- Monotonicity of JS min in its second argument (for a non-NaN first
argument). -/
theorem jle_jmin_mono {c x y : JSNum} (hc : c.isNaN = false)
    (h : jle x y = true) : jle (jmin c x) (jmin c y) = true := by
  cases c <;> cases x <;> cases y <;>
    simp_all [jle, jmin, jlt, JSNum.isNaN] <;>
    split_ifs <;> simp_all [jle] <;> linarith

/-- A non-negative value times a power of two grows with the exponent. -/
theorem jle_jmul_pow2_succ {b : JSNum} (hb : NonNeg b) (n : ℕ) :
    jle (jmul b (jpow2 n)) (jmul b (jpow2 (n + 1))) = true := by
  have h2 : (0 : ℚ) < 2 ^ n := pow_pos (by norm_num) n
  have h2s : (0 : ℚ) < 2 ^ (n + 1) := pow_pos (by norm_num) (n + 1)
  cases b with
  | pinf => simp [jmul, jpow2, h2, h2s, h2.ne', h2s.ne', jle]
  | fin q =>
    simp only [NonNeg] at hb
    simp only [jmul, jpow2, jle, decide_eq_true_eq]
    exact mul_le_mul_of_nonneg_left
      (pow_le_pow_right (by norm_num) (Nat.le_succ n)) hb
  | nan => simp [NonNeg] at hb
  | ninf => simp [NonNeg] at hb

/-- Adding a non-negative value on the left does not decrease a
non-negative value. -/
theorem jle_self_jadd {a x : JSNum} (ha : NonNeg a) (hx : NonNeg x) :
    jle x (jadd a x) = true := by
  cases a <;> cases x <;> simp_all [NonNeg, jadd, jle] <;> linarith

/-- C10: for the exponential, linear and Fibonacci strategies with valid
parameters, successive `nextBackoff` values (with no intervening reset)
are monotonically non-decreasing. -/
theorem growth_strategies_monotone :
    (∀ base cap n, mkExponential base cap = .ok () →
        jle (outAt (expNext base cap) n expInit)
          (outAt (expNext base cap) (n + 1) expInit) = true) ∧
    (∀ increment initialDelay cap n,
        mkLinear increment initialDelay cap = .ok () →
        jle (outAt (linNext increment initialDelay cap) n linInit)
          (outAt (linNext increment initialDelay cap) (n + 1) linInit)
          = true) ∧
    (∀ base cap n, mkExponential base cap = .ok () →
        jle (outAt (fibNext cap) n (fibInit base))
          (outAt (fibNext cap) (n + 1) (fibInit base)) = true) := by
  refine ⟨?_, ?_, ?_⟩
  · intro base cap n h
    obtain ⟨hb, hc⟩ := mkExp_ok_nonNeg h
    rw [outAt_expNext, outAt_expNext]
    exact jle_jmin_mono (nonNeg_isNaN_false hc) (jle_jmul_pow2_succ hb n)
  · intro increment initialDelay cap n h
    obtain ⟨qi, qd, qc, rfl, rfl, rfl, hqi, hqd, hqc⟩ := mkLinear_ok_fins h
    rw [outAt_linNext, outAt_linNext]
    refine jle_jmin_mono (by simp [JSNum.isNaN]) ?_
    simp only [jadd, jmul, jle, decide_eq_true_eq]
    have hcast : ((n : ℕ) : ℚ) ≤ (((n + 1 : ℕ)) : ℚ) := by
      push_cast
      linarith
    have := mul_le_mul_of_nonneg_left hcast hqi
    linarith
  · intro base cap n h
    obtain ⟨hb, hc⟩ := mkExp_ok_nonNeg h
    have hstep : (stateAfter (fibNext cap) (n + 1) (fibInit base)).currentDelay
        = jadd (stateAfter (fibNext cap) n (fibInit base)).previousDelay
            (stateAfter (fibNext cap) n (fibInit base)).currentDelay := by
      simp [stateAfter, fibNext]
    unfold outAt
    simp only [fibNext]
    rw [hstep]
    exact jle_jmin_mono (nonNeg_isNaN_false hc)
      (jle_self_jadd (fib_state_nonNeg cap hb n).1
        (fib_state_nonNeg cap hb n).2)

/-- C10 witness: the exponential conjunct at base 100, cap 500 between
calls 1 and 2. -/
theorem growth_strategies_monotone_witness :
    jle (outAt (expNext (.fin 100) (.fin 500)) 1 expInit)
      (outAt (expNext (.fin 100) (.fin 500)) 2 expInit) = true :=
  growth_strategies_monotone.1 (.fin 100) (.fin 500) 1 rfl

end RetryStrategies
